import Mathlib

/-!
Shallow embedding of the poster-rotation script src/scripts/replace_posters.py
and proofs about it.  Pure data (directory listings, file contents, pool
catalog entries) is passed explicitly; the print statements and git calls of
the script are modelled as an event list; exceptions raised by the filesystem
calls are modelled by explicit failure oracles.  Python str.isdigit and
str.lower are modelled for ASCII characters.
-/

namespace ReplacePosters

/-- Log lines and git commands emitted by the script, in emission order. -/
inductive Ev where
  | warnFallback (world : String) (idx : Nat) (slot : String)
  | errPool (world : String)
  | skipWorld (world : String)
  | dirMissing (world : String)
  | noPosters (world : String)
  | errSrcMissing (src : String)
  | errDirMissing (dir : String)
  | errRemove (dst : String)
  | errCopy (src dst : String)
  | replaced (world slot fname : String)
  | gitAdd (world : String)
  | gitCommit (world : String)
  | gitPush
deriving DecidableEq

/-- Python s.startswith(p): the first len(p) characters of s equal p. -/
def startsWithL (p s : List Char) : Bool :=
  s.take p.length == p

/-- Python s.endswith(p): the last len(p) characters of s equal p. -/
def endsWithL (p s : List Char) : Bool :=
  s.drop (s.length - p.length) == p

/-- Python str.isdigit on ASCII strings: nonempty and every character is a decimal digit. -/
def isDigits (cs : List Char) : Bool :=
  !cs.isEmpty && cs.all (fun c => c.isDigit)

/-- Python int(...) applied to a decimal digit string. -/
def digitsToNat (cs : List Char) : Nat :=
  cs.foldl (fun n c => n * 10 + (c.toNat - 48)) 0

/-- The Python slice fname[6:-4] used by get_poster_files, on character lists. -/
def midSlice (cs : List Char) : List Char :=
  (cs.drop 6).take (cs.length - 10)

/-- The filename test of get_poster_files:
fname.startswith("poster") and fname.endswith(".png") and fname[6:-4].isdigit(). -/
def posterMatch (fname : String) : Bool :=
  startsWithL "poster".toList fname.toList &&
    endsWithL ".png".toList fname.toList &&
    isDigits (midSlice fname.toList)

/-- The sort key int(fname[6:-4]) used by get_poster_files. -/
def posterNum (fname : String) : Nat :=
  digitsToNat (midSlice fname.toList)

/-- get_poster_files on a directory listing: keep the matching names in listing
order, then sort stably by the embedded integer (Python list.sort with a key). -/
def get_poster_files (listing : List String) : List String :=
  List.insertionSort (fun a b => posterNum a ≤ posterNum b) (listing.filter posterMatch)

/-- Python str.lower on one character, for the ASCII range. -/
def pyLowerChar (c : Char) : Char :=
  if 'A' ≤ c ∧ c ≤ 'Z' then Char.ofNat (c.toNat + 32) else c

/-- The pool-catalog filename test in main: fname.lower().endswith(".png"). -/
def poolMatch (fname : String) : Bool :=
  endsWithL ".png".toList (fname.toList.map pyLowerChar)

/-- Python h != prev_hash where prev_hash may be None: a string never equals None,
so an absent previous hash accepts every candidate. -/
def prevOk (h : String) (prev : Option String) : Bool :=
  match prev with
  | none => true
  | some p => h != p

/-- Primary pass of the selection loop: the first shuffled candidate whose hash
is not in used_hashes and differs from the previous hash of the slot. -/
def findPrimary (avail : List (String × String)) (used : List String)
    (prev : Option String) : Option (String × String) :=
  avail.find? (fun c => !used.contains c.2 && prevOk c.2 prev)

/-- Fallback pass of the selection loop: the first shuffled candidate whose hash
is not in used_hashes; the previous-hash constraint is dropped. -/
def findFallback (avail : List (String × String)) (used : List String) :
    Option (String × String) :=
  avail.find? (fun c => !used.contains c.2)

/-- The per-slot selection loop of main over the zipped poster files and current
hashes: primary pass, then a warning plus fallback pass, then an error plus
break when both passes fail.  Returns the selected (filename, hash) pairs and
the emitted events. -/
def selectGo (world : String) (avail : List (String × String)) :
    List (String × Option String) → List String → Nat →
      List (String × String) × List Ev
  | [], _, _ => ([], [])
  | (slot, prev) :: rest, used, idx =>
    match findPrimary avail used prev with
    | some c =>
      let r := selectGo world avail rest (c.2 :: used) (idx + 1)
      (c :: r.1, r.2)
    | none =>
      match findFallback avail used with
      | some c =>
        let r := selectGo world avail rest (c.2 :: used) (idx + 1)
        (c :: r.1, Ev.warnFallback world idx slot :: r.2)
      | none => ([], [Ev.warnFallback world idx slot, Ev.errPool world])

/-- Selection for one world: the loop starts with an empty used_hashes set and
slot index 0.  The slots pair each poster filename with its current hash
(none when the poster file does not exist). -/
def selectPosters (world : String) (avail : List (String × String))
    (slots : List (String × Option String)) : List (String × String) × List Ev :=
  selectGo world avail slots [] 0

/-- An association-list finite map used to model a directory: path to content. -/
def eraseKey (k : String) (m : List (String × String)) : List (String × String) :=
  m.filter (fun p => p.1 != k)

/-- Write a key in the directory model (os.remove of any old entry plus create). -/
def setKey (k v : String) (m : List (String × String)) : List (String × String) :=
  (k, v) :: eraseKey k m

/-- One world of the run: its name, whether os.path.isdir found its directory,
its poster slots (filename and current hash, none when the file is missing),
the directory contents, the shuffled pool list of this world, and oracles
telling which filesystem calls of the copy loop fail at each slot index
(modelling the exceptions and the repeated os.path.exists checks).  When the
try block around shutil.copy2 raises at slot i, copyResidue i tells what the
interrupted copy left at the destination: none when it wrote nothing, or some
content when it left a partial or even fully written file (the try block also
hashes the destination after the copy, so it can raise after a complete
write). -/
structure WorldCfg where
  name : String
  found : Bool
  slots : List (String × Option String)
  fs : List (String × String)
  shuffled : List (String × String)
  dirExists : Nat → Bool
  removeFails : Nat → Bool
  copyFails : Nat → Bool
  copyResidue : Nat → Option String

/-- The removal stage of one copy-loop iteration: when the destination file
exists, os.remove it; when os.remove raises, log the failure and keep the
file (the loop then still attempts the copy). -/
def removeStage (w : WorldCfg) (i : Nat) (dst : String)
    (fs : List (String × String)) : List (String × String) × List Ev :=
  match fs.lookup dst with
  | some _ =>
    if w.removeFails i then (fs, [Ev.errRemove dst])
    else (eraseKey dst fs, [])
  | none => (fs, [])

/-- The destination contents after the try block around shutil.copy2 raises at
slot i: the state after the removal stage when the interrupted copy wrote
nothing, and the residue content otherwise (partial or complete write before
the exception). -/
def copyFailFS (w : WorldCfg) (i : Nat) (dst : String)
    (fs : List (String × String)) : List (String × String) :=
  match w.copyResidue i with
  | none => (removeStage w i dst fs).1
  | some s => setKey dst s (removeStage w i dst fs).1

/-- One iteration of the copy loop of main for slot index i: check the source
exists, check the destination directory exists, remove an existing destination
file, then shutil.copy2 plus the post-copy hash inside one try block.  When the
try block raises, the failure is logged, the changed flag is not set, and the
destination is left in the residue-determined state.  Returns the new
directory contents, the events, and whether this slot set the changed flag. -/
def copyStep (poolFS : List (String × String)) (w : WorldCfg) (i : Nat)
    (fname dst : String) (fs : List (String × String)) :
    List (String × String) × List Ev × Bool :=
  match poolFS.lookup fname with
  | none => (fs, [Ev.errSrcMissing fname], false)
  | some content =>
    if !w.dirExists i then (fs, [Ev.errDirMissing w.name], false)
    else
      if w.copyFails i then
        (copyFailFS w i dst fs,
          (removeStage w i dst fs).2 ++ [Ev.errCopy fname dst], false)
      else
        (setKey dst content (removeStage w i dst fs).1,
          (removeStage w i dst fs).2 ++ [Ev.replaced w.name dst fname], true)

/-- The copy loop of main over the pairs of a selected pool image and its
destination poster filename; failures never abort the loop, and the changed
flag is the disjunction of the per-slot flags. -/
def applyCopies (poolFS : List (String × String)) (w : WorldCfg) :
    List ((String × String) × String) → Nat → List (String × String) →
      List (String × String) × List Ev × Bool
  | [], _, fs => (fs, [], false)
  | (c, dst) :: rest, i, fs =>
    let s := copyStep poolFS w i c.1 dst fs
    let r := applyCopies poolFS w rest (i + 1) s.1
    (r.1, s.2.1 ++ r.2.1, s.2.2 || r.2.2)

/-- The body of main for one found, nonempty world: run the selection; when the
selection is incomplete, log the skip and leave the directory untouched;
otherwise run the copy loop over the selected images. -/
def processWorld (poolFS : List (String × String)) (w : WorldCfg) :
    List (String × String) × List Ev × Bool :=
  let sel := selectPosters w.name w.shuffled w.slots
  if sel.1.length < w.slots.length then
    (w.fs, sel.2 ++ [Ev.skipWorld w.name], false)
  else
    let r := applyCopies poolFS w (sel.1.zip (w.slots.map Prod.fst)) 0 w.fs
    (r.1, sel.2 ++ r.2.1, r.2.2)

/-- One iteration of the world loop of main: skip a missing directory, skip a
world with no poster files, otherwise process it and, when the changed flag is
set, run git add and git commit with a message naming the world. -/
def worldStep (poolFS : List (String × String)) (w : WorldCfg) :
    List (String × String) × List Ev :=
  if !w.found then (w.fs, [Ev.dirMissing w.name])
  else if w.slots.isEmpty then (w.fs, [Ev.noPosters w.name])
  else
    let r := processWorld poolFS w
    (r.1, r.2.1 ++ if r.2.2 then [Ev.gitAdd w.name, Ev.gitCommit w.name] else [])

/-- The world loop of main, collecting all events in order. -/
def runBody (poolFS : List (String × String)) : List WorldCfg → List Ev
  | [] => []
  | w :: ws => (worldStep poolFS w).2 ++ runBody poolFS ws

/-- A whole run of main after the pool catalog is built: process every world in
list order, then git push exactly once at the end. -/
def runWorlds (poolFS : List (String × String)) (worlds : List WorldCfg) : List Ev :=
  runBody poolFS worlds ++ [Ev.gitPush]

/-- Whether a world sets the changed flag during the run (at least one
successful file replacement). -/
def worldChanged (poolFS : List (String × String)) (w : WorldCfg) : Bool :=
  w.found && !w.slots.isEmpty && (processWorld poolFS w).2.2

/-- Recognizer for commit events. -/
def isCommitEv : Ev → Bool
  | Ev.gitCommit _ => true
  | _ => false

/-- Recognizer for push events. -/
def isPushEv : Ev → Bool
  | Ev.gitPush => true
  | _ => false

/-- Python str.strip on character lists: drop ASCII whitespace from both ends. -/
def pyStrip (cs : List Char) : List Char :=
  ((cs.dropWhile Char.isWhitespace).reverse.dropWhile Char.isWhitespace).reverse

/-- Python s.split(c) for a one-character separator: split on every occurrence,
keeping empty pieces. -/
def pySplitGo (sep : Char) : List Char → List Char → List (List Char)
  | [], acc => [acc.reverse]
  | c :: cs, acc =>
    if c = sep then acc.reverse :: pySplitGo sep cs []
    else pySplitGo sep cs (c :: acc)

def pySplitOn (sep : Char) (cs : List Char) : List (List Char) :=
  pySplitGo sep cs []

/-- Python s.replace(pat, rep): replace every non-overlapping occurrence of pat
from the left.  The fuel argument is the remaining length, which bounds the
recursion. -/
def pyReplaceGo (pat rep : List Char) : Nat → List Char → List Char
  | _, [] => []
  | 0, s => s
  | fuel + 1, c :: cs =>
    if pat.isPrefixOf (c :: cs) then
      rep ++ pyReplaceGo pat rep fuel (cs.drop (pat.length - 1))
    else c :: pyReplaceGo pat rep fuel cs

def pyReplace (pat rep s : List Char) : List Char :=
  pyReplaceGo pat rep s.length s

/-- The slug derivation of setup_git when GITHUB_REPOSITORY is absent:
result.stdout.strip().split(":")[-1].replace(".git", "") applied to the
origin remote URL. -/
def deriveRepoSlug (stdout : List Char) : List Char :=
  pyReplace ".git".toList [] ((pySplitOn ':' (pyStrip stdout)).getLastD [])

/-- Soundness of the selection loop: the selected hashes are pairwise distinct,
and every selected candidate comes from the shuffled pool with a hash that was
not already used when the loop started. -/
theorem selectGo_sound (world : String) (avail : List (String × String)) :
    ∀ (slots : List (String × Option String)) (used : List String) (idx : Nat),
      ((selectGo world avail slots used idx).1.map Prod.snd).Nodup ∧
      ∀ c ∈ (selectGo world avail slots used idx).1, c ∈ avail ∧ c.2 ∉ used
  | [], used, idx => by simp [selectGo]
  | (slot, prev) :: rest, used, idx => by
    cases hp : findPrimary avail used prev with
    | some c =>
      have hc : c ∈ avail := List.mem_of_find?_eq_some hp
      have hpc := List.find?_some hp
      rw [Bool.and_eq_true, Bool.not_eq_true'] at hpc
      have hcu : c.2 ∉ used := by simpa using hpc.1
      obtain ⟨ihn, ihm⟩ := selectGo_sound world avail rest (c.2 :: used) (idx + 1)
      refine ⟨?_, ?_⟩
      · simp only [selectGo, hp, List.map_cons, List.nodup_cons]
        refine ⟨?_, ihn⟩
        intro hmem
        obtain ⟨d, hd, hdc⟩ := List.mem_map.mp hmem
        exact (ihm d hd).2 (hdc ▸ List.mem_cons_self _ _)
      · intro d hd
        simp only [selectGo, hp, List.mem_cons] at hd
        rcases hd with rfl | hd
        · exact ⟨hc, hcu⟩
        · obtain ⟨hda, hdu⟩ := ihm d hd
          exact ⟨hda, fun h => hdu (List.mem_cons_of_mem _ h)⟩
    | none =>
      cases hf : findFallback avail used with
      | some c =>
        have hc : c ∈ avail := List.mem_of_find?_eq_some hf
        have hpc := List.find?_some hf
        rw [Bool.not_eq_true'] at hpc
        have hcu : c.2 ∉ used := by simpa using hpc
        obtain ⟨ihn, ihm⟩ := selectGo_sound world avail rest (c.2 :: used) (idx + 1)
        refine ⟨?_, ?_⟩
        · simp only [selectGo, hp, hf, List.map_cons, List.nodup_cons]
          refine ⟨?_, ihn⟩
          intro hmem
          obtain ⟨d, hd, hdc⟩ := List.mem_map.mp hmem
          exact (ihm d hd).2 (hdc ▸ List.mem_cons_self _ _)
        · intro d hd
          simp only [selectGo, hp, hf, List.mem_cons] at hd
          rcases hd with rfl | hd
          · exact ⟨hc, hcu⟩
          · obtain ⟨hda, hdu⟩ := ihm d hd
            exact ⟨hda, fun h => hdu (List.mem_cons_of_mem _ h)⟩
      | none => simp [selectGo, hp, hf]

/-- The events emitted by the selection loop are warnings and pool-exhaustion
errors only: never git events. -/
theorem selectGo_evs (world : String) (avail : List (String × String)) :
    ∀ (slots : List (String × Option String)) (used : List String) (idx : Nat),
      ∀ e ∈ (selectGo world avail slots used idx).2,
        isCommitEv e = false ∧ isPushEv e = false
  | [], used, idx => by simp [selectGo]
  | (slot, prev) :: rest, used, idx => by
    intro e he
    cases hp : findPrimary avail used prev with
    | some c =>
      simp only [selectGo, hp] at he
      exact selectGo_evs world avail rest (c.2 :: used) (idx + 1) e he
    | none =>
      cases hf : findFallback avail used with
      | some c =>
        simp only [selectGo, hp, hf, List.mem_cons] at he
        rcases he with rfl | he
        · exact ⟨rfl, rfl⟩
        · exact selectGo_evs world avail rest (c.2 :: used) (idx + 1) e he
      | none =>
        simp only [selectGo, hp, hf, List.mem_cons, List.mem_singleton,
          List.not_mem_nil, or_false] at he
        rcases he with rfl | rfl
        · exact ⟨rfl, rfl⟩
        · exact ⟨rfl, rfl⟩

/-- A duplicate-free list contained in another list is no longer than the
deduplicated form of the other list. -/
theorem length_le_dedup_of_nodup_subset {l m : List String} (hn : l.Nodup)
    (hs : l ⊆ m) : l.length ≤ m.dedup.length := by
  calc l.length = l.toFinset.card := (List.toFinset_card_of_nodup hn).symm
    _ ≤ m.toFinset.card := by
        refine Finset.card_le_card ?_
        intro a ha
        rw [List.mem_toFinset] at ha ⊢
        exact hs ha
    _ = m.dedup.length := List.card_toFinset m

/-- The selection never picks more images than there are distinct hashes in the
shuffled pool. -/
theorem selectPosters_length_le (world : String) (avail : List (String × String))
    (slots : List (String × Option String)) :
    (selectPosters world avail slots).1.length ≤ (avail.map Prod.snd).dedup.length := by
  obtain ⟨hn, hm⟩ := selectGo_sound world avail slots [] 0
  have hsub : (selectPosters world avail slots).1.map Prod.snd ⊆ avail.map Prod.snd := by
    intro x hx
    obtain ⟨d, hd, rfl⟩ := List.mem_map.mp hx
    exact List.mem_map_of_mem _ (hm d hd).1
  have := length_le_dedup_of_nodup_subset hn hsub
  simpa using this

/-- C1: for every world for which a complete assignment is produced (one chosen
pool image per poster slot), the chosen images have pairwise-distinct content
hashes: no two slots of that world receive images with the same hash. -/
theorem c1_complete_assignment_distinct_hashes (world : String)
    (avail : List (String × String)) (slots : List (String × Option String))
    (_hcomplete : (selectPosters world avail slots).1.length = slots.length) :
    ((selectPosters world avail slots).1.map Prod.snd).Nodup :=
  (selectGo_sound world avail slots [] 0).1

/-- Witness for C1 at a concrete world with two slots and a two-image pool. -/
theorem c1_complete_assignment_distinct_hashes_witness :
    (selectPosters "w" [("a.png", "h1"), ("b.png", "h2")]
        [("poster1.png", some "h1"), ("poster2.png", none)]).1.length =
      ([("poster1.png", some "h1"), ("poster2.png", none)] :
        List (String × Option String)).length ∧
    ((selectPosters "w" [("a.png", "h1"), ("b.png", "h2")]
        [("poster1.png", some "h1"), ("poster2.png", none)]).1.map Prod.snd).Nodup :=
  ⟨by decide,
    c1_complete_assignment_distinct_hashes "w" [("a.png", "h1"), ("b.png", "h2")]
      [("poster1.png", some "h1"), ("poster2.png", none)] (by decide)⟩

/-- C5: candidates sharing a content hash are interchangeable: neither the
primary nor the fallback pass ever returns a candidate whose hash is already in
used_hashes, and two selected candidates of one world carrying the same hash
are the same filename, so once a hash is used every other candidate with that
hash is excluded for the remaining slots even under a different filename. -/
theorem c5_equal_hash_interchangeable :
    (∀ (avail : List (String × String)) (used : List String)
        (prev : Option String) (c : String × String),
        findPrimary avail used prev = some c → used.contains c.2 = false) ∧
    (∀ (avail : List (String × String)) (used : List String) (c : String × String),
        findFallback avail used = some c → used.contains c.2 = false) ∧
    (∀ (world : String) (avail : List (String × String))
        (slots : List (String × Option String)) (f1 f2 h : String),
        (f1, h) ∈ (selectPosters world avail slots).1 →
        (f2, h) ∈ (selectPosters world avail slots).1 → f1 = f2) := by
  refine ⟨?_, ?_, ?_⟩
  · intro avail used prev c hp
    have hpc := List.find?_some hp
    rw [Bool.and_eq_true, Bool.not_eq_true'] at hpc
    exact hpc.1
  · intro avail used c hf
    have hfc := List.find?_some hf
    rwa [Bool.not_eq_true'] at hfc
  · intro world avail slots f1 f2 h h1 h2
    have hn : ((selectPosters world avail slots).1.map Prod.snd).Nodup :=
      (selectGo_sound world avail slots [] 0).1
    have heq := List.inj_on_of_nodup_map hn h1 h2 rfl
    exact congrArg Prod.fst heq

/-- Witness for C5 at a pool holding two filenames with one shared hash. -/
theorem c5_equal_hash_interchangeable_witness :
    ("a.png", "h") ∈
      (selectPosters "w" [("a.png", "h"), ("b.png", "h")] [("poster1.png", none)]).1 ∧
    ("a.png" : String) = "a.png" :=
  ⟨by decide,
    c5_equal_hash_interchangeable.2.2 "w" [("a.png", "h"), ("b.png", "h")]
      [("poster1.png", none)] "a.png" "a.png" "h" (by decide) (by decide)⟩

/-- C2: when the pool has fewer distinct content hashes than a world has
slots, the selection stays incomplete for every shuffle order of the pool, the
world directory is left unmutated with the changed flag false (the incomplete
assignment is discarded), no commit is filed for the world, and the run
continues with the remaining worlds. -/
theorem c2_pool_exhaustion_skips_world (poolFS pool : List (String × String))
    (w : WorldCfg) (rest : List WorldCfg) (hperm : w.shuffled.Perm pool)
    (hlt : (pool.map Prod.snd).dedup.length < w.slots.length) :
    (selectPosters w.name w.shuffled w.slots).1.length < w.slots.length ∧
    (processWorld poolFS w).1 = w.fs ∧
    (processWorld poolFS w).2.2 = false ∧
    (worldStep poolFS w).2.filter isCommitEv = [] ∧
    runBody poolFS (w :: rest) = (worldStep poolFS w).2 ++ runBody poolFS rest := by
  have hdedup : (w.shuffled.map Prod.snd).dedup.length =
      (pool.map Prod.snd).dedup.length :=
    ((hperm.map Prod.snd).dedup).length_eq
  have hsel : (selectPosters w.name w.shuffled w.slots).1.length < w.slots.length := by
    have hle := selectPosters_length_le w.name w.shuffled w.slots
    omega
  have hpw : processWorld poolFS w =
      (w.fs, (selectPosters w.name w.shuffled w.slots).2 ++ [Ev.skipWorld w.name],
        false) := by
    simp only [processWorld]
    rw [if_pos hsel]
  have hne : ∀ e ∈ (selectPosters w.name w.shuffled w.slots).2,
      ¬ isCommitEv e = true := by
    intro e he
    have hev := selectGo_evs w.name w.shuffled w.slots [] 0 e he
    simp [hev.1]
  refine ⟨hsel, by rw [hpw], by rw [hpw], ?_, rfl⟩
  unfold worldStep
  split
  · simp [isCommitEv]
  · split
    · simp [isCommitEv]
    · rw [hpw]
      simp only [List.filter_append]
      rw [List.filter_eq_nil_iff.mpr hne]
      simp [isCommitEv]

/-- Witness for C2 at a two-slot world over a pool with one distinct hash. -/
theorem c2_pool_exhaustion_skips_world_witness :
    ([("b.png", "h1"), ("a.png", "h1")] : List (String × String)).Perm
      [("a.png", "h1"), ("b.png", "h1")] ∧
    (([("a.png", "h1"), ("b.png", "h1")] : List (String × String)).map
      Prod.snd).dedup.length < 2 ∧
    (processWorld []
      (⟨"w", true, [("poster1.png", none), ("poster2.png", none)], [],
        [("b.png", "h1"), ("a.png", "h1")], fun _ => true, fun _ => false,
        fun _ => false, fun _ => none⟩ : WorldCfg)).1 =
      (⟨"w", true, [("poster1.png", none), ("poster2.png", none)], [],
        [("b.png", "h1"), ("a.png", "h1")], fun _ => true, fun _ => false,
        fun _ => false, fun _ => none⟩ : WorldCfg).fs :=
  ⟨by decide, by decide,
    (c2_pool_exhaustion_skips_world [] [("a.png", "h1"), ("b.png", "h1")]
      (⟨"w", true, [("poster1.png", none), ("poster2.png", none)], [],
        [("b.png", "h1"), ("a.png", "h1")], fun _ => true, fun _ => false,
        fun _ => false, fun _ => none⟩ : WorldCfg) [] (by decide) (by decide)).2.1⟩

/-- Membership-equivalent used-hash lists give the same contains answers. -/
theorem contains_eq_of_mem_iff {u1 u2 : List String}
    (h : ∀ x, x ∈ u1 ↔ x ∈ u2) (x : String) : u1.contains x = u2.contains x := by
  by_cases hx : x ∈ u1
  · have e1 : u1.contains x = true := by simp [hx]
    have e2 : u2.contains x = true := by simp [(h x).mp hx]
    rw [e1, e2]
  · have hx2 : x ∉ u2 := fun hh => hx ((h x).mpr hh)
    have e1 : u1.contains x = false := by simp [hx]
    have e2 : u2.contains x = false := by simp [hx2]
    rw [e1, e2]

/-- The primary pass only looks at the used-hash list through membership. -/
theorem findPrimary_congr (avail : List (String × String)) {u1 u2 : List String}
    (h : ∀ x, x ∈ u1 ↔ x ∈ u2) (prev : Option String) :
    findPrimary avail u1 prev = findPrimary avail u2 prev := by
  unfold findPrimary
  congr 1
  funext c
  rw [contains_eq_of_mem_iff h c.2]

/-- Step characterization of the selection loop: at every selected position i,
when the primary pass over the hashes used before i finds a candidate, that
candidate is the selected one, and when it finds none, a fallback warning
naming the slot and the world is among the emitted events. -/
theorem selectGo_step (world : String) (avail : List (String × String)) :
    ∀ (slots : List (String × Option String)) (used : List String) (idx : Nat)
      (i : Nat), i < (selectGo world avail slots used idx).1.length →
      (∀ c, findPrimary avail
            (((selectGo world avail slots used idx).1.take i).map Prod.snd ++ used)
            (slots.getD i ("", none)).2 = some c →
          (selectGo world avail slots used idx).1.getD i ("", "") = c) ∧
      (findPrimary avail
            (((selectGo world avail slots used idx).1.take i).map Prod.snd ++ used)
            (slots.getD i ("", none)).2 = none →
          Ev.warnFallback world (idx + i) (slots.getD i ("", none)).1 ∈
            (selectGo world avail slots used idx).2)
  | [], used, idx, i => by simp [selectGo]
  | (slot, prev) :: rest, used, idx, i => by
    intro hi
    cases hp : findPrimary avail used prev with
    | some c =>
      simp only [selectGo, hp] at hi ⊢
      cases i with
      | zero =>
        simp only [List.take_zero, List.map_nil, List.nil_append, List.getD_cons_zero]
        refine ⟨?_, ?_⟩
        · intro c0 hc0
          rw [hp] at hc0
          exact Option.some.inj hc0
        · intro hc0
          rw [hp] at hc0
          exact absurd hc0 (by simp)
      | succ j =>
        have hj : j < (selectGo world avail rest (c.2 :: used) (idx + 1)).1.length := by
          simpa using hi
        obtain ⟨ih1, ih2⟩ := selectGo_step world avail rest (c.2 :: used) (idx + 1) j hj
        have hmem : ∀ x,
            x ∈ (((selectGo world avail rest (c.2 :: used) (idx + 1)).1.take j).map
                Prod.snd) ++ (c.2 :: used) ↔
            x ∈ c.2 :: ((((selectGo world avail rest (c.2 :: used) (idx + 1)).1.take
                j).map Prod.snd) ++ used) := by
          intro x
          simp only [List.mem_append, List.mem_cons]
          tauto
        have hcongr := findPrimary_congr avail hmem (rest.getD j ("", none)).2
        simp only [List.take_succ_cons, List.map_cons, List.cons_append,
          List.getD_cons_succ]
        refine ⟨?_, ?_⟩
        · intro c0 hc0
          rw [← hcongr] at hc0
          exact ih1 c0 hc0
        · intro hc0
          rw [← hcongr] at hc0
          have hidx : idx + (j + 1) = (idx + 1) + j := by omega
          rw [hidx]
          exact ih2 hc0
    | none =>
      cases hf : findFallback avail used with
      | some c =>
        simp only [selectGo, hp, hf] at hi ⊢
        cases i with
        | zero =>
          simp only [List.take_zero, List.map_nil, List.nil_append, List.getD_cons_zero]
          refine ⟨?_, ?_⟩
          · intro c0 hc0
            rw [hp] at hc0
            exact absurd hc0 (by simp)
          · intro _
            rw [Nat.add_zero]
            exact List.mem_cons_self _ _
        | succ j =>
          have hj : j < (selectGo world avail rest (c.2 :: used) (idx + 1)).1.length := by
            simpa using hi
          obtain ⟨ih1, ih2⟩ := selectGo_step world avail rest (c.2 :: used) (idx + 1) j hj
          have hmem : ∀ x,
              x ∈ (((selectGo world avail rest (c.2 :: used) (idx + 1)).1.take j).map
                  Prod.snd) ++ (c.2 :: used) ↔
              x ∈ c.2 :: ((((selectGo world avail rest (c.2 :: used) (idx + 1)).1.take
                  j).map Prod.snd) ++ used) := by
            intro x
            simp only [List.mem_append, List.mem_cons]
            tauto
          have hcongr := findPrimary_congr avail hmem (rest.getD j ("", none)).2
          simp only [List.take_succ_cons, List.map_cons, List.cons_append,
            List.getD_cons_succ]
          refine ⟨?_, ?_⟩
          · intro c0 hc0
            rw [← hcongr] at hc0
            exact ih1 c0 hc0
          · intro hc0
            rw [← hcongr] at hc0
            have hidx : idx + (j + 1) = (idx + 1) + j := by omega
            rw [hidx]
            exact List.mem_cons_of_mem _ (ih2 hc0)
      | none =>
        simp [selectGo, hp, hf] at hi

/-- C3: at every slot filled by the selection, if the primary pass over the
hashes already used finds a candidate then that candidate is the chosen one and
its hash satisfies the previous-hash constraint of the slot (it differs from
the previous hash when one exists), and if the primary pass finds none the slot
is resolved by the fallback pass only with a warning naming the slot and the
world among the emitted events. -/
theorem c3_primary_avoids_previous (world : String)
    (avail : List (String × String)) (slots : List (String × Option String))
    (i : Nat) (hi : i < (selectPosters world avail slots).1.length) :
    (∀ c, findPrimary avail
          (((selectPosters world avail slots).1.take i).map Prod.snd)
          (slots.getD i ("", none)).2 = some c →
        (selectPosters world avail slots).1.getD i ("", "") = c ∧
        prevOk c.2 (slots.getD i ("", none)).2 = true) ∧
    (findPrimary avail
          (((selectPosters world avail slots).1.take i).map Prod.snd)
          (slots.getD i ("", none)).2 = none →
        Ev.warnFallback world i (slots.getD i ("", none)).1 ∈
          (selectPosters world avail slots).2) := by
  obtain ⟨h1, h2⟩ := selectGo_step world avail slots [] 0 i hi
  rw [List.append_nil] at h1 h2
  rw [Nat.zero_add] at h2
  refine ⟨?_, h2⟩
  intro c hc
  refine ⟨h1 c hc, ?_⟩
  have hfind := List.find?_some hc
  rw [Bool.and_eq_true] at hfind
  exact hfind.2

/-- Witness for C3 at a slot whose previous hash the primary pass must avoid. -/
theorem c3_primary_avoids_previous_witness :
    0 < (selectPosters "w" [("a.png", "h1"), ("b.png", "h2")]
        [("poster1.png", some "h1")]).1.length ∧
    ((selectPosters "w" [("a.png", "h1"), ("b.png", "h2")]
        [("poster1.png", some "h1")]).1.getD 0 ("", "") = ("b.png", "h2") ∧
      prevOk "h2" (some "h1") = true) :=
  ⟨by decide,
    (c3_primary_avoids_previous "w" [("a.png", "h1"), ("b.png", "h2")]
        [("poster1.png", some "h1")] 0 (by decide)).1 ("b.png", "h2") (by decide)⟩

/-- C6: a slot whose previous hash is absent imposes no previous-hash
constraint: the primary pass coincides with the unconstrained pass, and at such
a slot the loop selects the first shuffled candidate with an unused hash. -/
theorem c6_absent_previous_hash_unconstrained :
    (∀ (avail : List (String × String)) (used : List String),
        findPrimary avail used none = findFallback avail used) ∧
    (∀ (world : String) (avail : List (String × String)) (name : String)
        (rest : List (String × Option String)) (used : List String) (idx : Nat)
        (c : String × String), findFallback avail used = some c →
        ((selectGo world avail ((name, none) :: rest) used idx).1).head? = some c) := by
  have hfp : ∀ (avail : List (String × String)) (used : List String),
      findPrimary avail used none = findFallback avail used := by
    intro avail used
    unfold findPrimary findFallback
    congr 1
    funext c
    simp [prevOk]
  refine ⟨hfp, ?_⟩
  intro world avail name rest used idx c hf
  have hp : findPrimary avail used none = some c := by rw [hfp, hf]
  simp [selectGo, hp]

/-- Witness for C6 at a slot with no previous file. -/
theorem c6_absent_previous_hash_unconstrained_witness :
    findFallback [("a.png", "h1")] [] = some ("a.png", "h1") ∧
    ((selectGo "w" [("a.png", "h1")] [("poster1.png", none)] [] 0).1).head? =
      some ("a.png", "h1") :=
  ⟨by decide,
    c6_absent_previous_hash_unconstrained.2 "w" [("a.png", "h1")] "poster1.png"
      [] [] 0 ("a.png", "h1") (by decide)⟩

/-- Erasing a key removes it from the directory model. -/
theorem lookup_eraseKey (k : String) (m : List (String × String)) :
    (eraseKey k m).lookup k = none := by
  induction m with
  | nil => rfl
  | cons p t ih =>
    unfold eraseKey at ih ⊢
    by_cases hp : p.1 = k
    · simp only [List.filter_cons, hp, bne_self_eq_false]
      exact ih
    · have hb : (p.1 != k) = true := by simp [hp]
      simp only [List.filter_cons, hb]
      have hk : (k == p.1) = false := by simp [Ne.symm hp]
      cases p with
      | mk a b =>
        simp only [List.lookup]
        simp only at hk
        rw [hk]
        exact ih

/-- The events of the removal stage are never git events. -/
theorem removeStage_evs (w : WorldCfg) (i : Nat) (dst : String)
    (fs : List (String × String)) :
    ∀ e ∈ (removeStage w i dst fs).2, isCommitEv e = false ∧ isPushEv e = false := by
  intro e he
  unfold removeStage at he
  split at he
  · split at he
    · simp at he
      subst he
      exact ⟨rfl, rfl⟩
    · simp at he
  · simp at he

/-- The events of one copy-loop iteration are never git events. -/
theorem copyStep_evs (poolFS : List (String × String)) (w : WorldCfg) (i : Nat)
    (fname dst : String) (fs : List (String × String)) :
    ∀ e ∈ (copyStep poolFS w i fname dst fs).2.1,
      isCommitEv e = false ∧ isPushEv e = false := by
  intro e he
  unfold copyStep at he
  split at he
  · simp at he
    subst he
    exact ⟨rfl, rfl⟩
  · split at he
    · simp at he
      subst he
      exact ⟨rfl, rfl⟩
    · split at he
      · simp only [List.mem_append, List.mem_singleton] at he
        rcases he with he | rfl
        · exact removeStage_evs w i dst fs e he
        · exact ⟨rfl, rfl⟩
      · simp only [List.mem_append, List.mem_singleton] at he
        rcases he with he | rfl
        · exact removeStage_evs w i dst fs e he
        · exact ⟨rfl, rfl⟩

/-- The events of the whole copy loop are never git events. -/
theorem applyCopies_evs (poolFS : List (String × String)) (w : WorldCfg) :
    ∀ (ps : List ((String × String) × String)) (i : Nat)
      (fs : List (String × String)),
      ∀ e ∈ (applyCopies poolFS w ps i fs).2.1,
        isCommitEv e = false ∧ isPushEv e = false
  | [], i, fs => by simp [applyCopies]
  | (c, dst) :: rest, i, fs => by
    intro e he
    simp only [applyCopies, List.mem_append] at he
    rcases he with he | he
    · exact copyStep_evs poolFS w i c.1 dst fs e he
    · exact applyCopies_evs poolFS w rest (i + 1) _ e he

/-- The events of processing one world are never git events. -/
theorem processWorld_evs (poolFS : List (String × String)) (w : WorldCfg) :
    ∀ e ∈ (processWorld poolFS w).2.1, isCommitEv e = false ∧ isPushEv e = false := by
  intro e he
  simp only [processWorld] at he
  split at he
  · simp only [List.mem_append, List.mem_singleton] at he
    rcases he with he | rfl
    · exact selectGo_evs w.name w.shuffled w.slots [] 0 e he
    · exact ⟨rfl, rfl⟩
  · simp only [List.mem_append] at he
    rcases he with he | he
    · exact selectGo_evs w.name w.shuffled w.slots [] 0 e he
    · exact applyCopies_evs poolFS w _ 0 w.fs e he

/-- One world contributes exactly one commit event when its changed flag is
set and none otherwise. -/
theorem worldStep_commits (poolFS : List (String × String)) (w : WorldCfg) :
    (worldStep poolFS w).2.filter isCommitEv =
      if worldChanged poolFS w then [Ev.gitCommit w.name] else [] := by
  have hne : ∀ e ∈ (processWorld poolFS w).2.1, ¬ isCommitEv e = true := by
    intro e he
    simp [(processWorld_evs poolFS w e he).1]
  unfold worldStep worldChanged
  cases hfw : w.found with
  | false => simp [isCommitEv]
  | true =>
    cases hse : w.slots.isEmpty with
    | true => simp [isCommitEv]
    | false =>
      simp only [Bool.not_true, Bool.false_eq_true, if_false, Bool.true_and,
        Bool.not_false, Bool.true_eq_false, if_true]
      rw [List.filter_append, List.filter_eq_nil_iff.mpr hne]
      cases hch : (processWorld poolFS w).2.2 with
      | false => simp [isCommitEv]
      | true => simp [isCommitEv]

/-- One world contributes no push event. -/
theorem worldStep_pushes (poolFS : List (String × String)) (w : WorldCfg) :
    (worldStep poolFS w).2.filter isPushEv = [] := by
  have hne : ∀ e ∈ (processWorld poolFS w).2.1, ¬ isPushEv e = true := by
    intro e he
    simp [(processWorld_evs poolFS w e he).2]
  unfold worldStep
  cases hfw : w.found with
  | false => simp [isPushEv]
  | true =>
    cases hse : w.slots.isEmpty with
    | true => simp [isPushEv]
    | false =>
      simp only [Bool.not_true, Bool.false_eq_true, if_false, Bool.not_false,
        Bool.true_eq_false, if_true]
      rw [List.filter_append, List.filter_eq_nil_iff.mpr hne]
      cases hch : (processWorld poolFS w).2.2 with
      | false => simp [isPushEv]
      | true => simp [isPushEv]

/-- The commit events of the world loop are one per changed world, in world
list order. -/
theorem runBody_commits (poolFS : List (String × String)) :
    ∀ worlds : List WorldCfg,
      (runBody poolFS worlds).filter isCommitEv =
        (worlds.filter (fun w => worldChanged poolFS w)).map
          (fun w => Ev.gitCommit w.name)
  | [] => rfl
  | w :: ws => by
    simp only [runBody, List.filter_append, List.filter_cons,
      runBody_commits poolFS ws, worldStep_commits poolFS w]
    cases hch : worldChanged poolFS w with
    | false => simp
    | true => simp

/-- The world loop emits no push event. -/
theorem runBody_pushes (poolFS : List (String × String)) :
    ∀ worlds : List WorldCfg, (runBody poolFS worlds).filter isPushEv = []
  | [] => rfl
  | w :: ws => by
    simp only [runBody, List.filter_append, worldStep_pushes poolFS w,
      runBody_pushes poolFS ws]
    rfl

/-- C7: over a whole run, the commit events are exactly one per world whose
changed flag was set (at least one successful file replacement), in world-list
order and each naming its world, and exactly one push event occurs, as the
last event of the run. -/
theorem c7_commit_per_changed_world_push_last (poolFS : List (String × String))
    (worlds : List WorldCfg) :
    (runWorlds poolFS worlds).filter isCommitEv =
      (worlds.filter (fun w => worldChanged poolFS w)).map
        (fun w => Ev.gitCommit w.name) ∧
    (runWorlds poolFS worlds).filter isPushEv = [Ev.gitPush] ∧
    (runWorlds poolFS worlds).getLast? = some Ev.gitPush := by
  unfold runWorlds
  refine ⟨?_, ?_, List.getLast?_concat _⟩
  · rw [List.filter_append, runBody_commits poolFS worlds]
    simp [isCommitEv]
  · rw [List.filter_append, runBody_pushes poolFS worlds]
    simp [isPushEv]

/-- C4 counterexample: a slot whose copy raises after the existing destination
file was removed ends with no destination file at all, so its content is not
unchanged from before the copy attempt even though the failure is logged. -/
theorem c4_copy_failure_counterexample :
    ([("poster1.png", "oldC")] : List (String × String)).lookup "poster1.png" =
      some "oldC" ∧
    Ev.errCopy "a.png" "poster1.png" ∈
      (copyStep [("a.png", "newC")]
        (⟨"w", true, [("poster1.png", some "oldh")], [("poster1.png", "oldC")],
          [("a.png", "hA")], fun _ => true, fun _ => false, fun _ => true,
          fun _ => none⟩ : WorldCfg) 0 "a.png" "poster1.png" [("poster1.png", "oldC")]).2.1 ∧
    (copyStep [("a.png", "newC")]
        (⟨"w", true, [("poster1.png", some "oldh")], [("poster1.png", "oldC")],
          [("a.png", "hA")], fun _ => true, fun _ => false, fun _ => true,
          fun _ => none⟩ : WorldCfg) 0 "a.png" "poster1.png" [("poster1.png", "oldC")]).1.lookup
        "poster1.png" ≠
      ([("poster1.png", "oldC")] : List (String × String)).lookup "poster1.png" := by
  refine ⟨by decide, by decide, by decide⟩

/-- C4 (amended): a slot whose copy fails has the failure logged and the loop
continues with the remaining slots; when the failure is detected before the
copy attempt (source missing, or destination directory missing) the
destination file is untouched; when the try block around the copy itself
raises, the destination is not guaranteed unchanged: its state is the removal
stage overlaid with whatever the interrupted copy left (nothing, a partial
file, or a complete file), so any pre-existing destination file persists only
when os.remove itself failed; in particular, when the existing destination was
successfully removed and the raising copy wrote nothing, the slot is left with
no destination file at all. -/
theorem c4_copy_failure_amended (poolFS : List (String × String)) (w : WorldCfg)
    (i : Nat) (fname dst : String) (fs : List (String × String)) :
    (poolFS.lookup fname = none →
      copyStep poolFS w i fname dst fs = (fs, [Ev.errSrcMissing fname], false)) ∧
    (∀ content, poolFS.lookup fname = some content → w.dirExists i = false →
      copyStep poolFS w i fname dst fs = (fs, [Ev.errDirMissing w.name], false)) ∧
    (∀ content, poolFS.lookup fname = some content → w.dirExists i = true →
      w.copyFails i = true →
      copyStep poolFS w i fname dst fs =
        (copyFailFS w i dst fs,
          (removeStage w i dst fs).2 ++ [Ev.errCopy fname dst], false)) ∧
    (∀ content, poolFS.lookup fname = some content → w.dirExists i = true →
      w.copyFails i = true → (fs.lookup dst).isSome = true →
      w.removeFails i = false → w.copyResidue i = none →
      (copyStep poolFS w i fname dst fs).1.lookup dst = none ∧
      Ev.errCopy fname dst ∈ (copyStep poolFS w i fname dst fs).2.1 ∧
      (copyStep poolFS w i fname dst fs).2.2 = false) ∧
    (∀ (c : String × String) (rest : List ((String × String) × String)),
      applyCopies poolFS w ((c, dst) :: rest) i fs =
        ((applyCopies poolFS w rest (i + 1) (copyStep poolFS w i c.1 dst fs).1).1,
          (copyStep poolFS w i c.1 dst fs).2.1 ++
            (applyCopies poolFS w rest (i + 1)
              (copyStep poolFS w i c.1 dst fs).1).2.1,
          (copyStep poolFS w i c.1 dst fs).2.2 ||
            (applyCopies poolFS w rest (i + 1)
              (copyStep poolFS w i c.1 dst fs).1).2.2)) := by
  refine ⟨?_, ?_, ?_, ?_, ?_⟩
  · intro h
    simp [copyStep, h]
  · intro content hc hd
    simp [copyStep, hc, hd]
  · intro content hc hd hcf
    simp [copyStep, hc, hd, hcf]
  · intro content hc hd hcf hdst hrm hres
    obtain ⟨v, hv⟩ := Option.isSome_iff_exists.mp hdst
    have hrs : removeStage w i dst fs = (eraseKey dst fs, []) := by
      simp [removeStage, hv, hrm]
    have hcs : copyStep poolFS w i fname dst fs =
        (eraseKey dst fs, [Ev.errCopy fname dst], false) := by
      simp [copyStep, copyFailFS, hc, hd, hcf, hrs, hres]
    rw [hcs]
    exact ⟨lookup_eraseKey dst fs, by simp, rfl⟩
  · intro c rest
    rfl

/-- Witness for the amended C4 at a slot whose shutil.copy2 raises. -/
theorem c4_copy_failure_amended_witness :
    ([("a.png", "newC")] : List (String × String)).lookup "a.png" = some "newC" ∧
    ((copyStep [("a.png", "newC")]
        (⟨"w", true, [("poster1.png", some "oldh")], [("poster1.png", "oldC")],
          [("a.png", "hA")], fun _ => true, fun _ => false, fun _ => true,
          fun _ => none⟩ : WorldCfg) 0 "a.png" "poster1.png" [("poster1.png", "oldC")]).1.lookup
        "poster1.png" = none ∧
      Ev.errCopy "a.png" "poster1.png" ∈
        (copyStep [("a.png", "newC")]
          (⟨"w", true, [("poster1.png", some "oldh")], [("poster1.png", "oldC")],
            [("a.png", "hA")], fun _ => true, fun _ => false, fun _ => true,
            fun _ => none⟩ : WorldCfg) 0 "a.png" "poster1.png" [("poster1.png", "oldC")]).2.1 ∧
      (copyStep [("a.png", "newC")]
          (⟨"w", true, [("poster1.png", some "oldh")], [("poster1.png", "oldC")],
            [("a.png", "hA")], fun _ => true, fun _ => false, fun _ => true,
            fun _ => none⟩ : WorldCfg) 0 "a.png" "poster1.png" [("poster1.png", "oldC")]).2.2 =
        false) :=
  ⟨by decide,
    (c4_copy_failure_amended [("a.png", "newC")]
        (⟨"w", true, [("poster1.png", some "oldh")], [("poster1.png", "oldC")],
          [("a.png", "hA")], fun _ => true, fun _ => false, fun _ => true,
          fun _ => none⟩ : WorldCfg) 0 "a.png" "poster1.png"
        [("poster1.png", "oldC")]).2.2.2.1 "newC" (by decide) (by decide)
      (by decide) (by decide) (by decide) (by decide)⟩

/-- endsWithL seen through an elementwise map: the original list ends in a
block whose image under the map is the pattern. -/
theorem endsWithL_map_iff (p : List Char) (f : Char → Char) (l : List Char) :
    endsWithL p (l.map f) = true ↔ ∃ t s4, l = t ++ s4 ∧ s4.map f = p := by
  unfold endsWithL
  rw [beq_iff_eq]
  constructor
  · intro h
    rw [List.length_map] at h
    rw [← List.map_drop] at h
    exact ⟨l.take (l.length - p.length), l.drop (l.length - p.length),
      (List.take_append_drop _ l).symm, h⟩
  · rintro ⟨t, s4, rfl, hs4⟩
    rw [List.map_append]
    have h1 : (t.map f ++ s4.map f).length - p.length = (t.map f).length := by
      simp [List.length_append, ← hs4]
    rw [h1, List.drop_left]
    exact hs4

/-- The slot filename pattern of get_poster_files, characterized: a literal
lowercase "poster", then a nonempty ASCII digit string, then a literal
lowercase ".png". -/
theorem posterMatch_iff (f : String) :
    posterMatch f = true ↔
      ∃ ds : List Char, ds ≠ [] ∧ (∀ c ∈ ds, c.isDigit = true) ∧
        f.toList = "poster".toList ++ ds ++ ".png".toList := by
  have h6 : ("poster".toList).length = 6 := by decide
  have h4 : (".png".toList).length = 4 := by decide
  unfold posterMatch startsWithL endsWithL isDigits midSlice
  rw [Bool.and_eq_true, Bool.and_eq_true, Bool.and_eq_true]
  rw [beq_iff_eq, beq_iff_eq]
  constructor
  · rintro ⟨⟨hpre, hsuf⟩, hne, hall⟩
    rw [h6] at hpre
    rw [h4] at hsuf
    rw [Bool.not_eq_true', List.isEmpty_eq_false_iff_exists_mem] at hne
    have hmidlen : 0 < ((f.toList.drop 6).take (f.toList.length - 10)).length := by
      obtain ⟨x, hx⟩ := hne
      exact List.length_pos_of_mem hx
    rw [List.length_take, List.length_drop] at hmidlen
    have h11 : 11 ≤ f.toList.length := by omega
    refine ⟨(f.toList.drop 6).take (f.toList.length - 10), ?_, ?_, ?_⟩
    · intro hnil
      obtain ⟨x, hx⟩ := hne
      rw [hnil] at hx
      exact absurd hx (List.not_mem_nil x)
    · exact List.all_eq_true.mp hall
    · have e3 : (f.toList.drop 6).drop (f.toList.length - 10) =
          f.toList.drop (f.toList.length - 4) := by
        rw [List.drop_drop]
        congr 1
        omega
      have hsplit : f.toList =
          f.toList.take 6 ++
            ((f.toList.drop 6).take (f.toList.length - 10) ++
              (f.toList.drop 6).drop (f.toList.length - 10)) := by
        rw [List.take_append_drop, List.take_append_drop]
      have hfin : f.toList.take 6 ++
          ((f.toList.drop 6).take (f.toList.length - 10) ++
            (f.toList.drop 6).drop (f.toList.length - 10)) =
          "poster".toList ++ (f.toList.drop 6).take (f.toList.length - 10) ++
            ".png".toList := by
        rw [hpre, e3, hsuf, List.append_assoc]
      exact hsplit.trans hfin
  · rintro ⟨ds, hnil, hdig, heq⟩
    have hlen : f.toList.length = ds.length + 10 := by
      rw [heq, List.length_append, List.length_append, h6, h4]
      omega
    have hdrop6 : f.toList.drop 6 = ds ++ ".png".toList := by
      rw [heq, List.append_assoc, ← h6, List.drop_left]
    have hmid : (f.toList.drop 6).take (f.toList.length - 10) = ds := by
      rw [hdrop6, hlen]
      have : ds.length + 10 - 10 = ds.length := by omega
      rw [this, List.take_left]
    refine ⟨⟨?_, ?_⟩, ?_, ?_⟩
    · rw [heq, List.append_assoc]
      exact List.take_left "poster".toList (ds ++ ".png".toList)
    · have hl : ("poster".toList ++ ds ++ ".png".toList).length -
          (".png".toList).length = ("poster".toList ++ ds).length := by
        rw [List.length_append]
        omega
      rw [heq, hl]
      exact List.drop_left ("poster".toList ++ ds) ".png".toList
    · rw [hmid]
      cases ds with
      | nil => exact absurd rfl hnil
      | cons a t => rfl
    · rw [hmid]
      exact List.all_eq_true.mpr hdig

/-- The key relation of get_poster_files is total. -/
instance posterNumLeTotal : IsTotal String (fun a b => posterNum a ≤ posterNum b) :=
  ⟨fun a b => Nat.le_total (posterNum a) (posterNum b)⟩

/-- The key relation of get_poster_files is transitive. -/
instance posterNumLeTrans : IsTrans String (fun a b => posterNum a ≤ posterNum b) :=
  ⟨fun _ _ _ h1 h2 => Nat.le_trans h1 h2⟩

/-- C9 counterexample: "poster0.png" is recognized as a poster slot although
its embedded integer is 0, which is not a positive integer. -/
theorem c9_poster_zero_counterexample :
    get_poster_files ["poster0.png"] = ["poster0.png"] ∧
    posterNum "poster0.png" = 0 := by
  refine ⟨by decide, by decide⟩

/-- C9 (amended): the recognized poster slots are exactly the filenames of the
form "poster", then a nonempty decimal digit string (the embedded integer may
be zero, has no fixed width, and may carry leading zeros), then ".png", and
the returned slot sequence is sorted ascending by the embedded integer value. -/
theorem c9_poster_slot_recognition_amended :
    (∀ (listing : List String) (f : String),
        f ∈ get_poster_files listing ↔ f ∈ listing ∧ posterMatch f = true) ∧
    (∀ f : String, posterMatch f = true ↔
        ∃ ds : List Char, ds ≠ [] ∧ (∀ c ∈ ds, c.isDigit = true) ∧
          f.toList = "poster".toList ++ ds ++ ".png".toList) ∧
    (∀ listing : List String,
        List.Sorted (fun a b => posterNum a ≤ posterNum b)
          (get_poster_files listing)) := by
  refine ⟨?_, posterMatch_iff, ?_⟩
  · intro listing f
    unfold get_poster_files
    rw [List.mem_insertionSort]
    exact List.mem_filter
  · intro listing
    exact List.sorted_insertionSort _ _

/-- Witness for the amended C9 on a small directory listing. -/
theorem c9_poster_slot_recognition_amended_witness :
    "poster1.png" ∈ get_poster_files ["x.png", "poster1.png"] :=
  (c9_poster_slot_recognition_amended.1 ["x.png", "poster1.png"]
    "poster1.png").mpr (by decide)

/-- C10: slot recognition is case-sensitive while pool recognition is
case-insensitive: a pool filename is catalogued exactly when it ends in the
four characters ".png" up to letter case, while "Poster1.png" and
"poster1.PNG" are accepted for the pool but rejected as slots, and only the
all-lowercase "poster1.png" is a slot. -/
theorem c10_slot_case_sensitive_pool_case_insensitive :
    (∀ s : String, poolMatch s = true ↔
        ∃ t s4, s.toList = t ++ s4 ∧ s4.map pyLowerChar = ".png".toList) ∧
    posterMatch "poster1.png" = true ∧
    posterMatch "Poster1.png" = false ∧
    posterMatch "poster1.PNG" = false ∧
    poolMatch "Poster1.png" = true ∧
    poolMatch "poster1.PNG" = true := by
  refine ⟨?_, by decide, by decide, by decide, by decide, by decide⟩
  intro s
  exact endsWithL_map_iff ".png".toList pyLowerChar s.toList

/-- Witness for C10 on an uppercase pool filename. -/
theorem c10_slot_case_sensitive_pool_case_insensitive_witness :
    poolMatch "A.PNG" = true :=
  (c10_slot_case_sensitive_pool_case_insensitive.1 "A.PNG").mpr
    ⟨['A'], ['.', 'P', 'N', 'G'], by decide, by decide⟩

/-- C8 counterexample: for the HTTPS remote URL form the derived slug is not
"owner/repo". -/
theorem c8_https_slug_counterexample :
    deriveRepoSlug "https://github.com/owner/repo.git".toList ≠
      "owner/repo".toList := by decide

/-- C8 (amended): the derivation keeps everything after the last colon of the
stripped remote URL and deletes ".git" occurrences, so an SSH-form URL
"git@github.com:owner/repo.git" yields the slug "owner/repo", while an
HTTPS-form URL "https://github.com/owner/repo.git" yields
"//github.com/owner/repo" instead of the repository slug. -/
theorem c8_slug_derivation_amended :
    deriveRepoSlug "git@github.com:owner/repo.git".toList = "owner/repo".toList ∧
    deriveRepoSlug "  git@github.com:Owner2/Repo-2.git\n".toList =
      "Owner2/Repo-2".toList ∧
    deriveRepoSlug "https://github.com/owner/repo.git".toList =
      "//github.com/owner/repo".toList := by
  refine ⟨by decide, by decide, by decide⟩

end ReplacePosters
